import Mathlib

/-!
Verification of the Z_n modular-ring core (src/src/linear-algebra.ts).

The embedding is shallow: JS numbers holding integers become `Int`; the JS
remainder operator `%` (truncated, sign of the dividend) becomes `Int.tmod`;
a thrown `Error` becomes the `.error` branch of `Except String`; the JS value
`undefined` returned by an inverse lookup becomes `none`; a NaN produced by
arithmetic on `undefined` is modelled as `none` in an `Option Int` result.
The `Z` class constructor sorts its representative list and derives both
operation tables from it, so a ring object is modelled as the sorted list,
with `n` and the tables as derived functions.
-/

namespace MathHelper

/-- utils.createIncreasingArray(from, to): the integers from a to b inclusive
(empty when a > b). -/
def createIncreasingArray (a b : Int) : List Int :=
  (List.range (b + 1 - a).toNat).map (fun k : Nat => a + (k : Int))

/-- The JS remainder operator x % n (truncated division, sign of dividend). -/
def jsMod (x n : Int) : Int := Int.tmod x n

/-- A Z ring object. The constructor sorts the representatives ascending;
everything else (_n, both tables, the field view) is derived from the sorted
list, mirroring the source where _n and the tables are computed from the
sorted _variables. -/
structure Zring where
  vars : List Int
deriving DecidableEq

/-- this._n: the number of representatives. -/
def Zring.n (z : Zring) : Nat := z.vars.length

/-- Z.sum (static): (a + b) % n. -/
def Zsum (n a b : Int) : Int := jsMod (a + b) n

/-- Z.multiply (static): (a * b) % n. -/
def Zmultiply (n a b : Int) : Int := jsMod (a * b) n

/-- Instance method sum: delegates to the static formula with n = this._n. -/
def Zring.sum (z : Zring) (a b : Int) : Int := Zsum (z.n : Int) a b

/-- Instance method multiply: delegates to the static formula with n = this._n. -/
def Zring.multiply (z : Zring) (a b : Int) : Int := Zmultiply (z.n : Int) a b

/-- Z.operationTable: for i in [0,n), j in [i,n) the loop assigns
matrix[i][j] = matrix[j][i] = operation(i, j); the operation is applied to
the INDICES i and j, not to the representative values. Each cell is written
exactly once, so the finished matrix has entry (i, j) equal to
operation(min i j, max i j). -/
def operationTable (vars : List Int) (op : Int → Int → Int) : List (List Int) :=
  let n := vars.length
  (List.range n).map (fun i : Nat =>
    (List.range n).map (fun j : Nat =>
      if i ≤ j then op (i : Int) (j : Int) else op (j : Int) (i : Int)))

/-- this._table.addition, built in the constructor from the sorted list. -/
def Zring.additionTable (z : Zring) : List (List Int) :=
  operationTable z.vars (fun a b => z.sum a b)

/-- this._table.multiply, built in the constructor from the sorted list. -/
def Zring.multiplyTable (z : Zring) : List (List Int) :=
  operationTable z.vars (fun a b => z.multiply a b)

/-- The Z constructor: rejects a missing or empty list, otherwise sorts the
representatives ascending (JS Array.sort with a numeric comparator). -/
def mkZ (vs : List Int) : Option Zring :=
  if vs.isEmpty then none
  else some ⟨List.insertionSort (· ≤ ·) vs⟩

/-- Z.createFromRange. -/
def createFromRange (a b : Int) : Option Zring := mkZ (createIncreasingArray a b)

/-- Z.createFromN: the canonical ring over 0..n-1. -/
def createFromN (n : Int) : Option Zring := mkZ (createIncreasingArray 0 (n - 1))

/-- Message thrown by findInverseVariable when the argument is falsy or 0. -/
def errVariableZero : String :=
  "variable must be provided and must not be equal to 0"

/-- Message thrown by the inverse lookups when the argument is not a
representative of the ring. -/
def errNotMember : String :=
  "variables not include the provided variable"

/-- Message thrown by the FVar.divide guard. -/
def errDivisorF0 : String :=
  "divisor must be provided and cannot be f0"

/-- Z.findInverseVariable: rejects 0 (the falsy check and the explicit 0 check
coincide on integers) and non-members; otherwise scans the multiplication
table row of the argument for the first entry equal to 1 and returns the
representative at that column, or undefined (none) when no entry is 1. -/
def Zring.findInverseVariable (z : Zring) (x : Int) : Except String (Option Int) :=
  if x = 0 then .error errVariableZero
  else if x ∈ z.vars then
    match (z.multiplyTable.getD (z.vars.indexOf x) []).findIdx? (fun r => r == 1) with
    | none => .ok none
    | some j => .ok z.vars[j]?
  else .error errNotMember

/-- Z.findAdditiveInverseVariable: the presence guard never fires on an
integer (0 is explicitly allowed); rejects non-members; otherwise scans the
addition table row of the argument for the first entry equal to 0 and returns
the representative at that column, or undefined (none). -/
def Zring.findAdditiveInverseVariable (z : Zring) (x : Int) : Except String (Option Int) :=
  if x ∈ z.vars then
    match (z.additionTable.getD (z.vars.indexOf x) []).findIdx? (fun r => r == 0) with
    | none => .ok none
    | some j => .ok z.vars[j]?
  else .error errNotMember

/-- FVar.sum: the guard (!addition && addition !== 0) never fires on an
integer, so on the Int model the call always succeeds with
value = field.sum(value, x). -/
def fSum (z : Zring) (v x : Int) : Except String Int := .ok (z.sum v x)

/-- FVar.multiply: as for sum, the presence guard never fires on an integer. -/
def fMultiply (z : Zring) (v x : Int) : Except String Int := .ok (z.multiply v x)

/-- FVar.subtract: value = field.sum(value, field.getAdditiveInverseVariable(x)).
The lookup may throw (propagated as .error); an undefined lookup result makes
the sum NaN, modelled as none. -/
def fSubtract (z : Zring) (v x : Int) : Except String (Option Int) :=
  match z.findAdditiveInverseVariable x with
  | .error e => .error e
  | .ok none => .ok none
  | .ok (some y) => .ok (some (z.sum v y))

/-- FVar.divide: guard ((!divisor && divisor !== 0) || divisor === f0), which
on integers fires exactly when the divisor is 0 = f0; then
value = field.multiply(value, field.getInverseVariable(divisor)), the lookup
throwing (propagated) or returning undefined (NaN result, modelled none). -/
def fDivide (z : Zring) (v x : Int) : Except String (Option Int) :=
  if x = 0 then .error errDivisorF0
  else
    match z.findInverseVariable x with
    | .error e => .error e
    | .ok none => .ok none
    | .ok (some y) => .ok (some (z.multiply v y))

/-- FVar.sum as a state transformer: result flag and the value of _value when
the call returns or throws. The assignment to _value is the final statement
of the method, after every possible throw. -/
def fSumRun (z : Zring) (v x : Int) : Except String Unit × Option Int :=
  (.ok (), some (z.sum v x))

/-- FVar.multiply as a state transformer. -/
def fMultiplyRun (z : Zring) (v x : Int) : Except String Unit × Option Int :=
  (.ok (), some (z.multiply v x))

/-- FVar.subtract as a state transformer: the additive-inverse lookup runs
before the assignment to _value, so a throw leaves _value at its prior
value v. -/
def fSubtractRun (z : Zring) (v x : Int) : Except String Unit × Option Int :=
  match z.findAdditiveInverseVariable x with
  | .error e => (.error e, some v)
  | .ok none => (.ok (), none)
  | .ok (some y) => (.ok (), some (z.sum v y))

/-- FVar.divide as a state transformer: the guard and the inverse lookup run
before the assignment to _value, so a throw leaves _value at its prior
value v. -/
def fDivideRun (z : Zring) (v x : Int) : Except String Unit × Option Int :=
  if x = 0 then (.error errDivisorF0, some v)
  else
    match z.findInverseVariable x with
    | .error e => (.error e, some v)
    | .ok none => (.ok (), none)
    | .ok (some y) => (.ok (), some (z.multiply v y))

/-- Entry (i, j) of a table, with JS out-of-bounds reads modelled by
defaults. -/
def tableEntry (t : List (List Int)) (i j : Nat) : Int := (t.getD i []).getD j 0

/-- The canonical representative list 0..n-1 built by createFromN. -/
def canonVars (n : Nat) : List Int :=
  List.map (fun k : Nat => (k : Int)) (List.range n)

/-- The ring object createFromN(n) constructs (for n ≥ 1). -/
def Zn (n : Nat) : Zring := ⟨canonVars n⟩

/-- A row-level heap modelling JS object references for the aliasing claims:
each cell holds one table row, and a table value held by a consumer is a list
of row references. -/
structure Heap where
  rows : List (List Int)

/-- Dereference a row reference. -/
def Heap.read (h : Heap) (r : Nat) : List Int := h.rows.getD r []

/-- In-place mutation of the row behind a reference (what a consumer does
when it writes into a table it was handed). -/
def Heap.write (h : Heap) (r : Nat) (row : List Int) : Heap := ⟨h.rows.set r row⟩

/-- Allocate a fresh cell holding the given row and return its reference. -/
def Heap.alloc (h : Heap) (row : List Int) : Heap × Nat :=
  (⟨h.rows ++ [row]⟩, h.rows.length)

/-- Allocate a cell per row, returning the fresh references in order. -/
def allocRows (h : Heap) (rs : List (List Int)) : Heap × List Nat :=
  match rs with
  | [] => (h, [])
  | r :: rest =>
    let p := h.alloc r
    let q := allocRows p.1 rest
    (q.1, p.2 :: q.2)

/-- lodash cloneDeep applied to a table value: a fresh cell for every row,
each copying the current contents of the corresponding original row. -/
def cloneDeepTable (h : Heap) (refs : List Nat) : Heap × List Nat :=
  allocRows h (refs.map h.read)

/-- A Z instance living in the heap: the pure ring data plus the references
of the rows of its two cached tables (_table.addition and _table.multiply). -/
structure ZObj where
  ring : Zring
  addRefs : List Nat
  mulRefs : List Nat

/-- Well-formedness of a heap-resident Z instance: its internal row
references are live cells. -/
def ZObj.wf (o : ZObj) (h : Heap) : Prop :=
  (∀ r ∈ o.addRefs, r < h.rows.length) ∧ (∀ r ∈ o.mulRefs, r < h.rows.length)

/-- Z.getAdditionTable(false): return cloneDeep(this._table.addition). -/
def getAdditionTableObj (h : Heap) (o : ZObj) : Heap × List Nat :=
  cloneDeepTable h o.addRefs

/-- Z.getMultiplyTable(false): return cloneDeep(this._table.multiply). -/
def getMultiplyTableObj (h : Heap) (o : ZObj) : Heap × List Nat :=
  cloneDeepTable h o.mulRefs

/-- The ring Z.createFromN(5) evaluates to. -/
def ring5 : Zring := ⟨[0, 1, 2, 3, 4]⟩

/-- The ring Z.createFromRange(3, 9) evaluates to. -/
def ring39 : Zring := ⟨[3, 4, 5, 6, 7, 8, 9]⟩

/-- The ring Z.createFromN(7) evaluates to. -/
def ring7 : Zring := ⟨[0, 1, 2, 3, 4, 5, 6]⟩

/-- A tiny concrete heap for exercising the aliasing theorems. -/
def heapW : Heap := ⟨[[1], [2]]⟩

/-- A concrete heap-resident Z instance whose two table rows live at
references 0 and 1 of heapW. -/
def zobjW : ZObj := ⟨⟨[0]⟩, [0], [1]⟩

instance {ε α : Type} [DecidableEq ε] [DecidableEq α] : DecidableEq (Except ε α) :=
  fun a b =>
    match a, b with
    | .error e, .error f =>
      if h : e = f then .isTrue (by rw [h]) else .isFalse (by simp [h])
    | .error _, .ok _ => .isFalse (by simp)
    | .ok _, .error _ => .isFalse (by simp)
    | .ok x, .ok y =>
      if h : x = y then .isTrue (by rw [h]) else .isFalse (by simp [h])

theorem canonVars_sorted (n : Nat) : List.Sorted (· ≤ ·) (canonVars n) := by
  unfold canonVars
  exact List.Pairwise.map _
    (fun a b hab => by exact_mod_cast Nat.le_of_lt hab) (List.sorted_lt_range n)

theorem canonVars_length (n : Nat) : (canonVars n).length = n := by
  unfold canonVars
  rw [List.length_map, List.length_range]

theorem createIncreasingArray_zero (n : Nat) :
    createIncreasingArray 0 ((n : Int) - 1) = canonVars n := by
  unfold createIncreasingArray canonVars
  have h : ((n : Int) - 1 + 1 - 0).toNat = n := by omega
  rw [h]
  exact List.map_congr_left (fun a _ => by simp)

theorem createFromN_canon (n : Nat) (hn : 1 ≤ n) :
    createFromN (n : Int) = some (Zn n) := by
  unfold createFromN mkZ
  rw [createIncreasingArray_zero]
  have hne : (canonVars n).isEmpty = false := by
    rw [List.isEmpty_eq_false, ← List.length_pos, canonVars_length]
    omega
  rw [hne]
  simp [Zn, List.Sorted.insertionSort_eq (canonVars_sorted n)]

theorem mem_canonVars {n : Nat} {x : Int} :
    x ∈ canonVars n ↔ 0 ≤ x ∧ x < (n : Int) := by
  unfold canonVars
  rw [List.mem_map]
  constructor
  · rintro ⟨k, hk, rfl⟩
    rw [List.mem_range] at hk
    omega
  · rintro ⟨h0, hn⟩
    exact ⟨x.toNat, by rw [List.mem_range]; omega, by omega⟩

theorem indexOf_map_range :
    ∀ (n : Nat) (f : Nat → Int), (∀ a b : Nat, f a = f b → a = b) →
      ∀ k, k < n → ((List.range n).map f).indexOf (f k) = k := by
  intro n
  induction n with
  | zero => intro f _ k hk; omega
  | succ m ih =>
    intro f hf k hk
    rw [List.range_succ_eq_map, List.map_cons, List.map_map]
    cases k with
    | zero => exact List.indexOf_cons_self _ _
    | succ j =>
      have hne : f 0 ≠ f (j + 1) := fun h => by have := hf _ _ h; omega
      rw [List.indexOf_cons_ne _ hne]
      have hstep := ih (fun a => f (a + 1))
        (fun a b h => by have := hf _ _ h; omega) j (by omega)
      have hcomp : List.map (f ∘ Nat.succ) (List.range m) =
          List.map (fun a => f (a + 1)) (List.range m) := rfl
      rw [hcomp, hstep]

theorem canonVars_indexOf {n : Nat} {x : Int} (h0 : 0 ≤ x) (hn : x < (n : Int)) :
    (canonVars n).indexOf x = x.toNat := by
  have hx : x = ((x.toNat : Nat) : Int) := by omega
  rw [canonVars, hx]
  exact indexOf_map_range n _ (fun a b h => by exact_mod_cast h) x.toNat (by omega)

theorem getD_map_range_lt {α : Type} (g : Nat → α) {n i : Nat} (h : i < n) (d : α) :
    ((List.range n).map g).getD i d = g i := by
  rw [List.getD_eq_getElem?_getD, List.getElem?_map, List.getElem?_range h]
  rfl

theorem getD_map_range_ge {α : Type} (g : Nat → α) {n i : Nat} (h : n ≤ i) (d : α) :
    ((List.range n).map g).getD i d = d := by
  rw [List.getD_eq_getElem?_getD, List.getElem?_eq_none (by simp [h])]
  rfl

theorem jsMod_natCast (m n : Nat) :
    jsMod (m : Int) (n : Int) = ((m % n : Nat) : Int) := by
  unfold jsMod
  rw [Int.tmod_eq_emod (by positivity) (by positivity)]
  exact (Int.natCast_mod m n).symm

theorem Zn_n (n : Nat) : (Zn n).n = n := canonVars_length n

theorem Zn_vars (n : Nat) : (Zn n).vars = canonVars n := rfl

theorem Zn_sum_natCast (n a b : Nat) :
    (Zn n).sum (a : Int) (b : Int) = (((a + b) % n : Nat) : Int) := by
  unfold Zring.sum Zsum
  rw [Zn_n]
  rw [show ((a : Int) + (b : Int)) = (((a + b : Nat) : Nat) : Int) by push_cast; ring]
  exact jsMod_natCast _ _

theorem Zn_multiply_natCast (n a b : Nat) :
    (Zn n).multiply (a : Int) (b : Int) = (((a * b) % n : Nat) : Int) := by
  unfold Zring.multiply Zmultiply
  rw [Zn_n]
  rw [show ((a : Int) * (b : Int)) = (((a * b : Nat) : Nat) : Int) by push_cast; ring]
  exact jsMod_natCast _ _

theorem Zn_mulTable_row {n i : Nat} (hi : i < n) :
    (Zn n).multiplyTable.getD i [] =
      (List.range n).map (fun j : Nat => (((i * j) % n : Nat) : Int)) := by
  unfold Zring.multiplyTable operationTable
  rw [show (Zn n).vars.length = n from canonVars_length n]
  rw [getD_map_range_lt _ hi]
  refine List.map_congr_left (fun j hj => ?_)
  rw [List.mem_range] at hj
  rcases le_or_lt i j with h | h
  · rw [if_pos h]
    exact Zn_multiply_natCast n i j
  · rw [if_neg (by omega)]
    have hc := Zn_multiply_natCast n j i
    rw [Nat.mul_comm j i] at hc
    exact hc

theorem Zn_addTable_row {n i : Nat} (hi : i < n) :
    (Zn n).additionTable.getD i [] =
      (List.range n).map (fun j : Nat => (((i + j) % n : Nat) : Int)) := by
  unfold Zring.additionTable operationTable
  rw [show (Zn n).vars.length = n from canonVars_length n]
  rw [getD_map_range_lt _ hi]
  refine List.map_congr_left (fun j hj => ?_)
  rw [List.mem_range] at hj
  rcases le_or_lt i j with h | h
  · rw [if_pos h]
    exact Zn_sum_natCast n i j
  · rw [if_neg (by omega)]
    have hc := Zn_sum_natCast n j i
    rw [Nat.add_comm j i] at hc
    exact hc

theorem createFromN_some {n : Nat} {z : Zring} (h : createFromN (n : Int) = some z) :
    1 ≤ n ∧ z = Zn n := by
  rcases Nat.eq_zero_or_pos n with rfl | hn
  · exfalso
    unfold createFromN mkZ createIncreasingArray at h
    norm_num at h
    exact Option.noConfusion h
  · rw [createFromN_canon n hn] at h
    exact ⟨hn, (Option.some_injective _ h).symm⟩

theorem mkZ_some {vs : List Int} {z : Zring} (h : mkZ vs = some z) :
    0 < z.n ∧ z.vars = List.insertionSort (· ≤ ·) vs := by
  cases vs with
  | nil => exact Option.noConfusion h
  | cons a rest =>
    have hz : z = ⟨List.insertionSort (· ≤ ·) (a :: rest)⟩ :=
      (Option.some_injective _ h).symm
    subst hz
    refine ⟨?_, rfl⟩
    show 0 < (List.insertionSort (· ≤ ·) (a :: rest)).length
    rw [List.length_insertionSort]
    simp

theorem tableEntry_operationTable_lt {vars : List Int} {op : Int → Int → Int}
    {i j : Nat} (hi : i < vars.length) (hj : j < vars.length) :
    tableEntry (operationTable vars op) i j =
      if i ≤ j then op (i : Int) (j : Int) else op (j : Int) (i : Int) := by
  unfold tableEntry operationTable
  rw [getD_map_range_lt _ hi, getD_map_range_lt _ hj]

theorem tableEntry_operationTable_out {vars : List Int} {op : Int → Int → Int}
    {i j : Nat} (h : vars.length ≤ i ∨ vars.length ≤ j) :
    tableEntry (operationTable vars op) i j = 0 := by
  unfold tableEntry operationTable
  rcases h with h | h
  · rw [getD_map_range_ge _ h]
    rfl
  · rcases lt_or_ge i vars.length with hi | hi
    · rw [getD_map_range_lt _ hi, getD_map_range_ge _ h]
    · rw [getD_map_range_ge _ hi]
      rfl

theorem tableEntry_operationTable_symm (vars : List Int) (op : Int → Int → Int)
    (i j : Nat) :
    tableEntry (operationTable vars op) i j =
      tableEntry (operationTable vars op) j i := by
  rcases lt_or_ge i vars.length with hi | hi
  · rcases lt_or_ge j vars.length with hj | hj
    · rw [tableEntry_operationTable_lt hi hj, tableEntry_operationTable_lt hj hi]
      rcases le_or_lt i j with hij | hij
      · rcases le_or_lt j i with hji | hji
        · have hij' : i = j := le_antisymm hij hji
          subst hij'
          simp
        · rw [if_pos hij, if_neg (by omega)]
      · rw [if_neg (by omega), if_pos (by omega)]
    · rw [tableEntry_operationTable_out (Or.inr hj),
        tableEntry_operationTable_out (Or.inl hj)]
  · rw [tableEntry_operationTable_out (Or.inl hi),
      tableEntry_operationTable_out (Or.inr hi)]

theorem jsMod_bounds {a n : Int} (ha : 0 ≤ a) (hn : 0 < n) :
    0 ≤ jsMod a n ∧ jsMod a n < n := by
  unfold jsMod
  rw [Int.tmod_eq_emod ha (le_of_lt hn)]
  exact ⟨Int.emod_nonneg a (by omega), Int.emod_lt_of_pos a hn⟩

/-- C4: for every valid ring, both cached operation tables are symmetric
matrices: table[i][j] = table[j][i]. -/
theorem c4_tables_symmetric (vs : List Int) (z : Zring) (h : mkZ vs = some z)
    (i j : Nat) :
    tableEntry z.additionTable i j = tableEntry z.additionTable j i ∧
    tableEntry z.multiplyTable i j = tableEntry z.multiplyTable j i :=
  ⟨tableEntry_operationTable_symm _ _ i j, tableEntry_operationTable_symm _ _ i j⟩

/-- Witness for C4 at the ring fromCount(5), indices 1 and 3. -/
theorem c4_tables_symmetric_witness :
    tableEntry ring5.additionTable 1 3 = tableEntry ring5.additionTable 3 1 ∧
    tableEntry ring5.multiplyTable 1 3 = tableEntry ring5.multiplyTable 3 1 :=
  c4_tables_symmetric [0, 1, 2, 3, 4] ring5 rfl 1 3

/-- C9: for every valid ring, every entry of both cached tables lies in
[0, size-1]. -/
theorem c9_table_entries_in_range (vs : List Int) (z : Zring) (h : mkZ vs = some z)
    (i j : Nat) (hi : i < z.n) (hj : j < z.n) :
    (0 ≤ tableEntry z.additionTable i j ∧
      tableEntry z.additionTable i j ≤ (z.n : Int) - 1) ∧
    (0 ≤ tableEntry z.multiplyTable i j ∧
      tableEntry z.multiplyTable i j ≤ (z.n : Int) - 1) := by
  have hn : 0 < z.n := (mkZ_some h).1
  have hnz : (0 : Int) < (z.n : Int) := by exact_mod_cast hn
  constructor
  · rw [show z.additionTable = operationTable z.vars (fun a b => z.sum a b) from rfl,
      tableEntry_operationTable_lt hi hj]
    have h1 : 0 ≤ z.sum (i : Int) (j : Int) ∧ z.sum (i : Int) (j : Int) < (z.n : Int) :=
      jsMod_bounds (a := (i : Int) + (j : Int)) (by positivity) hnz
    have h2 : 0 ≤ z.sum (j : Int) (i : Int) ∧ z.sum (j : Int) (i : Int) < (z.n : Int) :=
      jsMod_bounds (a := (j : Int) + (i : Int)) (by positivity) hnz
    split
    · exact ⟨h1.1, by omega⟩
    · exact ⟨h2.1, by omega⟩
  · rw [show z.multiplyTable = operationTable z.vars (fun a b => z.multiply a b) from rfl,
      tableEntry_operationTable_lt hi hj]
    have h1 : 0 ≤ z.multiply (i : Int) (j : Int) ∧
        z.multiply (i : Int) (j : Int) < (z.n : Int) :=
      jsMod_bounds (a := (i : Int) * (j : Int)) (by positivity) hnz
    have h2 : 0 ≤ z.multiply (j : Int) (i : Int) ∧
        z.multiply (j : Int) (i : Int) < (z.n : Int) :=
      jsMod_bounds (a := (j : Int) * (i : Int)) (by positivity) hnz
    split
    · exact ⟨h1.1, by omega⟩
    · exact ⟨h2.1, by omega⟩

/-- Witness for C9 at the ring fromCount(5), indices 2 and 4. -/
theorem c9_table_entries_in_range_witness :
    (0 ≤ tableEntry ring5.additionTable 2 4 ∧
      tableEntry ring5.additionTable 2 4 ≤ (ring5.n : Int) - 1) ∧
    (0 ≤ tableEntry ring5.multiplyTable 2 4 ∧
      tableEntry ring5.multiplyTable 2 4 ≤ (ring5.n : Int) - 1) :=
  c9_table_entries_in_range [0, 1, 2, 3, 4] ring5 rfl 2 4 (by decide) (by decide)

/-- C2: for fromCount(n), sum(a,b) = (a+b) mod n and multiply(a,b) = (a*b)
mod n on all representatives; in particular for n = 7, sum(5,5) = 3 and
multiply(5,5) = 4. -/
theorem c2_fromCount_mod (n : Nat) (z : Zring) (h : createFromN (n : Int) = some z) :
    (∀ a b : Int, a ∈ z.vars → b ∈ z.vars →
      z.sum a b = (a + b) % (n : Int) ∧ z.multiply a b = (a * b) % (n : Int)) ∧
    (n = 7 → z.sum 5 5 = 3 ∧ z.multiply 5 5 = 4) := by
  obtain ⟨hn, rfl⟩ := createFromN_some h
  constructor
  · intro a b ha hb
    rw [Zn_vars, mem_canonVars] at ha hb
    have hzn : ((Zn n).n : Int) = (n : Int) := by rw [Zn_n]
    constructor
    · show jsMod (a + b) ((Zn n).n : Int) = (a + b) % (n : Int)
      rw [hzn]
      unfold jsMod
      exact Int.tmod_eq_emod (by omega) (by omega)
    · show jsMod (a * b) ((Zn n).n : Int) = (a * b) % (n : Int)
      rw [hzn]
      unfold jsMod
      exact Int.tmod_eq_emod (mul_nonneg ha.1 hb.1) (by omega)
  · rintro rfl
    decide

/-- Witness for C2 at n = 7: the concrete sums and products of the spec. -/
theorem c2_fromCount_mod_witness :
    ring7.sum 5 5 = 3 ∧ ring7.multiply 5 5 = 4 :=
  (c2_fromCount_mod 7 ring7 (by decide)).2 rfl

/-- C5: the chained evaluation fromCount(5).getFVar(2).divide(3).subtract(1)
yields 3: the looked-up inverse of 3 is 2, divide gives 2*2 = 4, the looked-up
additive inverse of 1 is 4, subtract gives 4+4 = 8 mod 5 = 3. -/
theorem c5_chain_divide_subtract :
    createFromN 5 = some ring5 ∧
    ring5.findInverseVariable 3 = .ok (some 2) ∧
    fDivide ring5 2 3 = .ok (some 4) ∧
    ring5.findAdditiveInverseVariable 1 = .ok (some 4) ∧
    fSubtract ring5 4 1 = .ok (some 3) :=
  ⟨rfl, rfl, rfl, rfl, rfl⟩

/-- C6: FVar.sum and FVar.multiply never throw on an integer argument, and
whenever FVar.subtract or FVar.divide throws, the element's value is exactly
what it was before the call (the ring itself is never mutated by any of its
operations, which are pure functions of the ring value in this embedding). -/
theorem c6_validation_before_mutation (z : Zring) (v x : Int) :
    (fSumRun z v x).1 = .ok () ∧
    (fMultiplyRun z v x).1 = .ok () ∧
    (∀ e, (fSubtractRun z v x).1 = .error e → (fSubtractRun z v x).2 = some v) ∧
    (∀ e, (fDivideRun z v x).1 = .error e → (fDivideRun z v x).2 = some v) := by
  refine ⟨rfl, rfl, ?_, ?_⟩
  · intro e he
    unfold fSubtractRun at he ⊢
    cases hl : z.findAdditiveInverseVariable x with
    | error f => rfl
    | ok o =>
      rw [hl] at he
      cases o <;> exact Except.noConfusion he
  · intro e he
    unfold fDivideRun at he ⊢
    by_cases hx : x = 0
    · rw [if_pos hx]
    · rw [if_neg hx] at he ⊢
      cases hl : z.findInverseVariable x with
      | error f => rfl
      | ok o =>
        rw [hl] at he
        cases o <;> exact Except.noConfusion he

/-- Witness for C6: subtract(7) on fromCount(5) throws and leaves the value
at 2. -/
theorem c6_validation_before_mutation_witness :
    (fSubtractRun ring5 2 7).2 = some 2 :=
  (c6_validation_before_mutation ring5 2 7).2.2.1 errNotMember rfl

/-- Helper: with a nonzero argument, an error thrown by findInverseVariable
is the membership error. -/
theorem findInverseVariable_error_of_ne {z : Zring} {x : Int} {f : String}
    (hx0 : x ≠ 0) (h : z.findInverseVariable x = .error f) : f = errNotMember := by
  unfold Zring.findInverseVariable at h
  rw [if_neg hx0] at h
  by_cases hm : x ∈ z.vars
  · rw [if_pos hm] at h
    cases hidx : ((z.multiplyTable.getD (z.vars.indexOf x) []).findIdx?
        (fun r => r == 1)) with
    | none => rw [hidx] at h; exact Except.noConfusion h
    | some j => rw [hidx] at h; exact Except.noConfusion h

  · rw [if_neg hm] at h
    injection h with h
    exact h.symm

/-- C8 (amended): the divide-by-zero guard of FVar.divide fires exactly when
the divisor is the additive identity 0 (absence is not representable on
integers); for any other divisor the method computes
value = multiply(value, getInverseVariable(divisor)), propagating a thrown
lookup error, with an undefined inverse flowing into a NaN value. -/
theorem c8_divide_guard (z : Zring) (v x : Int) :
    (fDivide z v x = .error errDivisorF0 ↔ x = 0) ∧
    (x ≠ 0 → fDivide z v x =
      Except.map (fun inv => Option.map (fun y => z.multiply v y) inv)
        (z.findInverseVariable x)) := by
  constructor
  · constructor
    · intro hdiv
      by_contra hx0
      unfold fDivide at hdiv
      rw [if_neg hx0] at hdiv
      cases hl : z.findInverseVariable x with
      | error f =>
        rw [hl] at hdiv
        injection hdiv with hdiv
        have hf : f = errNotMember := findInverseVariable_error_of_ne hx0 hl
        rw [hf] at hdiv
        exact absurd hdiv (by decide)
      | ok o =>
        rw [hl] at hdiv
        cases o <;> exact Except.noConfusion hdiv
    · intro hx0
      subst hx0
      rfl
  · intro hx0
    unfold fDivide
    rw [if_neg hx0]
    cases hl : z.findInverseVariable x with
    | error f => rfl
    | ok o => cases o <;> rfl

/-- Witness for C8: divide(3) at value 2 over fromCount(5) follows the
lookup-then-multiply equation. -/
theorem c8_divide_guard_witness :
    fDivide ring5 2 3 =
      Except.map (fun inv => Option.map (fun y => ring5.multiply 2 y) inv)
        (ring5.findInverseVariable 3) :=
  (c8_divide_guard ring5 2 3).2 (by decide)

/-- Counterexample to C8 as stated: divide(7) on fromCount(5) throws although
7 is present (a number) and differs from the additive identity — the failure
comes from the membership check inside the inverse lookup, not the
divide-guard, so "fails iff absent or f0" is false. -/
theorem c8_divide_guard_counterexample :
    fDivide ring5 2 7 = .error errNotMember ∧
    errNotMember ≠ errDivisorF0 ∧ (7 : Int) ≠ 0 :=
  ⟨rfl, by decide, by decide⟩

/-- C10: a present argument outside the representative set makes subtract and
divide throw (subtract via the membership error of the additive-inverse
lookup; divide via the guard when the argument is 0, the membership error of
the inverse lookup otherwise), and the element's value is unchanged. -/
theorem c10_nonmember_throws_value_unchanged (z : Zring) (v x : Int)
    (hx : x ∉ z.vars) :
    (fSubtractRun z v x).1 = .error errNotMember ∧
    (fSubtractRun z v x).2 = some v ∧
    (∃ e, (fDivideRun z v x).1 = .error e) ∧
    (fDivideRun z v x).2 = some v ∧
    (x ≠ 0 → (fDivideRun z v x).1 = .error errNotMember) := by
  have hadd : z.findAdditiveInverseVariable x = .error errNotMember := by
    unfold Zring.findAdditiveInverseVariable
    rw [if_neg hx]
  have hsub : fSubtractRun z v x = (.error errNotMember, some v) := by
    unfold fSubtractRun
    rw [hadd]
  by_cases hx0 : x = 0
  · subst hx0
    refine ⟨by rw [hsub], by rw [hsub], ⟨errDivisorF0, rfl⟩, rfl, fun h => absurd rfl h⟩
  · have hinv : z.findInverseVariable x = .error errNotMember := by
      unfold Zring.findInverseVariable
      rw [if_neg hx0, if_neg hx]
    have hdiv : fDivideRun z v x = (.error errNotMember, some v) := by
      unfold fDivideRun
      rw [if_neg hx0, hinv]
    exact ⟨by rw [hsub], by rw [hsub], ⟨errNotMember, by rw [hdiv]⟩,
      by rw [hdiv], fun _ => by rw [hdiv]⟩

/-- Witness for C10: the non-member 9 over fromCount(5). -/
theorem c10_nonmember_throws_value_unchanged_witness :
    (fSubtractRun ring5 3 9).1 = .error errNotMember ∧
    (fDivideRun ring5 3 9).2 = some 3 :=
  ⟨(c10_nonmember_throws_value_unchanged ring5 3 9 (by decide)).1,
    (c10_nonmember_throws_value_unchanged ring5 3 9 (by decide)).2.2.2.1⟩

theorem canonVars_getElem? {n j : Nat} (h : j < n) :
    (canonVars n)[j]? = some ((j : Nat) : Int) := by
  unfold canonVars
  rw [List.getElem?_map, List.getElem?_range h]
  rfl

theorem Zn_findAdd_eq {n : Nat} {x : Int} (h0 : 0 ≤ x) (hn : x < (n : Int)) :
    (Zn n).findAdditiveInverseVariable x =
      match ((List.range n).map
          (fun j : Nat => (((x.toNat + j) % n : Nat) : Int))).findIdx?
          (fun r => r == 0) with
      | none => Except.ok none
      | some j => Except.ok (canonVars n)[j]? := by
  have hm : x ∈ (Zn n).vars := by
    rw [Zn_vars, mem_canonVars]
    exact ⟨h0, hn⟩
  unfold Zring.findAdditiveInverseVariable
  rw [if_pos hm,
    show (Zn n).vars.indexOf x = x.toNat from canonVars_indexOf h0 hn,
    Zn_addTable_row (show x.toNat < n by omega)]
  rfl

theorem Zn_findInv_eq {n : Nat} {x : Int} (hx0 : x ≠ 0) (h0 : 0 ≤ x)
    (hn : x < (n : Int)) :
    (Zn n).findInverseVariable x =
      match ((List.range n).map
          (fun j : Nat => (((x.toNat * j) % n : Nat) : Int))).findIdx?
          (fun r => r == 1) with
      | none => Except.ok none
      | some j => Except.ok (canonVars n)[j]? := by
  have hm : x ∈ (Zn n).vars := by
    rw [Zn_vars, mem_canonVars]
    exact ⟨h0, hn⟩
  unfold Zring.findInverseVariable
  rw [if_neg hx0, if_pos hm,
    show (Zn n).vars.indexOf x = x.toNat from canonVars_indexOf h0 hn,
    Zn_mulTable_row (show x.toNat < n by omega)]
  rfl

/-- C3 (amended): over fromCount(n), findAdditiveInverseVariable(x) returns
exactly (n - x) mod n, which satisfies sum(x, y) = 0 — that is, every
representative has an additive inverse and the lookup finds it. (On
non-canonical rings the lookup works in index space and the claim fails, see
the counterexample.) -/
theorem c3_fromCount_additive_inverse (n : Nat) (z : Zring)
    (h : createFromN (n : Int) = some z) :
    ∀ x ∈ z.vars,
      z.findAdditiveInverseVariable x = .ok (some (((n : Int) - x) % (n : Int))) ∧
      z.sum x (((n : Int) - x) % (n : Int)) = 0 := by
  obtain ⟨hn, rfl⟩ := createFromN_some h
  intro x hx
  rw [Zn_vars, mem_canonVars] at hx
  obtain ⟨h0, hlt⟩ := hx
  have hxa : x = ((x.toNat : Nat) : Int) := by omega
  have haln : x.toNat < n := by omega
  have hj0lt : (n - x.toNat) % n < n := Nat.mod_lt _ (by omega)
  have hval : (x.toNat + (n - x.toNat) % n) % n = 0 := by
    rcases Nat.eq_zero_or_pos x.toNat with hz | hapos
    · rw [hz]
      simp [Nat.mod_self]
    · have hj0 : (n - x.toNat) % n = n - x.toNat := Nat.mod_eq_of_lt (by omega)
      rw [hj0, Nat.add_sub_cancel' (by omega), Nat.mod_self]
  have hfirst : ∀ k, k < (n - x.toNat) % n → (x.toNat + k) % n ≠ 0 := by
    intro k hk
    have hapos : 0 < x.toNat := by
      by_contra hz0
      have hz : x.toNat = 0 := by omega
      rw [hz] at hk
      simp [Nat.mod_self] at hk
    have hk2 : k < n - x.toNat := by
      rwa [Nat.mod_eq_of_lt (by omega)] at hk
    rw [Nat.mod_eq_of_lt (by omega)]
    omega
  have hrowfind :
      ((List.range n).map
          (fun j : Nat => (((x.toNat + j) % n : Nat) : Int))).findIdx?
        (fun r => r == 0) = some ((n - x.toNat) % n) := by
    rw [List.findIdx?_eq_some_iff_getElem]
    refine ⟨by simpa using hj0lt, ?_, ?_⟩
    · rw [List.getElem_map, List.getElem_range, hval]
      decide
    · intro k hkj
      rw [List.getElem_map, List.getElem_range]
      simp only [beq_iff_eq, Int.natCast_eq_zero]
      exact hfirst k hkj
  have hcast : (((n - x.toNat) % n : Nat) : Int) = ((n : Int) - x) % (n : Int) := by
    rw [Int.natCast_mod]
    congr 1
    omega
  constructor
  · rw [Zn_findAdd_eq h0 hlt, hrowfind]
    show Except.ok (canonVars n)[(n - x.toNat) % n]? =
      Except.ok (some (((n : Int) - x) % (n : Int)))
    rw [canonVars_getElem? hj0lt, hcast]
  · have hgoal : (Zn n).sum x (((n : Int) - x) % (n : Int)) =
        (Zn n).sum ((x.toNat : Nat) : Int) ((((n - x.toNat) % n : Nat) : Int)) := by
      rw [← hcast, ← hxa]
    rw [hgoal, Zn_sum_natCast, hval]
    rfl

/-- Counterexample to C3 as stated: on the valid ring fromRange(3, 9), the
lookup for 3 returns 3, but sum(3, 3) = 6 ≠ 0, even though the representative
4 satisfies sum(3, 4) = 0 — the lookup scanned the index-space addition table,
not the representative values. -/
theorem c3_counterexample :
    createFromRange 3 9 = some ring39 ∧
    ring39.findAdditiveInverseVariable 3 = .ok (some 3) ∧
    ring39.sum 3 3 = 6 ∧
    ring39.sum 3 4 = 0 ∧ (4 : Int) ∈ ring39.vars :=
  ⟨rfl, rfl, by decide, by decide, by decide⟩

/-- Witness for the amended C3 at n = 5, x = 1: the additive inverse is 4. -/
theorem c3_fromCount_additive_inverse_witness :
    ring5.findAdditiveInverseVariable 1 = .ok (some (((5 : Int) - 1) % (5 : Int))) ∧
    ring5.sum 1 (((5 : Int) - 1) % (5 : Int)) = 0 :=
  c3_fromCount_additive_inverse 5 ring5 (by decide) 1 (by decide)

/-- C1 (amended): over fromCount(n), findInverseVariable(x) returns a y with
multiply(x, y) = 1 when it returns a value, and returns undefined only when no
representative w satisfies multiply(x, w) = 1; for prime n every nonzero
representative gets a value, and for composite n ≥ 2 some nonzero
representative gets undefined. (On non-canonical rings the lookup works in
index space and the claim fails, see the counterexample.) -/
theorem c1_fromCount_multiplicative_inverse (n : Nat) (z : Zring)
    (h : createFromN (n : Int) = some z) :
    (∀ x y : Int, x ∈ z.vars → x ≠ 0 →
      z.findInverseVariable x = .ok (some y) → z.multiply x y = 1) ∧
    (∀ x : Int, x ∈ z.vars → x ≠ 0 → z.findInverseVariable x = .ok none →
      ∀ w ∈ z.vars, z.multiply x w ≠ 1) ∧
    (Nat.Prime n → ∀ x ∈ z.vars, x ≠ 0 →
      ∃ y, z.findInverseVariable x = .ok (some y)) ∧
    (2 ≤ n → ¬ Nat.Prime n →
      ∃ x ∈ z.vars, x ≠ 0 ∧ z.findInverseVariable x = .ok none) := by
  obtain ⟨hn, rfl⟩ := createFromN_some h
  refine ⟨?_, ?_, ?_, ?_⟩
  · intro x y hx hx0 hfind
    rw [Zn_vars, mem_canonVars] at hx
    obtain ⟨h0, hlt⟩ := hx
    rw [Zn_findInv_eq hx0 h0 hlt] at hfind
    cases hidx : ((List.range n).map
        (fun j : Nat => (((x.toNat * j) % n : Nat) : Int))).findIdx?
        (fun r => r == 1) with
    | none =>
      rw [hidx] at hfind
      injection hfind with hfind
      exact Option.noConfusion hfind
    | some j =>
      rw [hidx] at hfind
      obtain ⟨hjlen, hpj, -⟩ := List.findIdx?_eq_some_iff_getElem.mp hidx
      have hjn : j < n := by simpa using hjlen
      rw [show (match some j with
          | none => Except.ok none
          | some j => Except.ok (canonVars n)[j]?) =
            Except.ok (ε := String) (canonVars n)[j]? from rfl,
        canonVars_getElem? hjn] at hfind
      injection hfind with hfind
      injection hfind with hfind
      rw [List.getElem_map, List.getElem_range, beq_iff_eq] at hpj
      have hmod : (x.toNat * j) % n = 1 := by exact_mod_cast hpj
      have hxa : x = ((x.toNat : Nat) : Int) := by omega
      rw [← hfind, hxa, Zn_multiply_natCast, hmod]
      rfl
  · intro x hx hx0 hfind w hw
    rw [Zn_vars, mem_canonVars] at hx hw
    obtain ⟨h0, hlt⟩ := hx
    obtain ⟨hw0, hwlt⟩ := hw
    rw [Zn_findInv_eq hx0 h0 hlt] at hfind
    cases hidx : ((List.range n).map
        (fun j : Nat => (((x.toNat * j) % n : Nat) : Int))).findIdx?
        (fun r => r == 1) with
    | some j =>
      rw [hidx] at hfind
      obtain ⟨hjlen, -, -⟩ := List.findIdx?_eq_some_iff_getElem.mp hidx
      have hjn : j < n := by simpa using hjlen
      rw [show (match some j with
          | none => Except.ok none
          | some j => Except.ok (canonVars n)[j]?) =
            Except.ok (ε := String) (canonVars n)[j]? from rfl,
        canonVars_getElem? hjn] at hfind
      injection hfind with hfind
      exact Option.noConfusion hfind
    | none =>
      have hall := List.findIdx?_eq_none_iff.mp hidx
      intro hmul
      have hwa : w = ((w.toNat : Nat) : Int) := by omega
      have hxa : x = ((x.toNat : Nat) : Int) := by omega
      rw [hxa, hwa, Zn_multiply_natCast] at hmul
      have hmod : (x.toNat * w.toNat) % n = 1 := by exact_mod_cast hmul
      have hmem : (((x.toNat * w.toNat) % n : Nat) : Int) ∈
          (List.range n).map (fun j : Nat => (((x.toNat * j) % n : Nat) : Int)) :=
        List.mem_map.mpr ⟨w.toNat, List.mem_range.mpr (by omega), rfl⟩
      have := hall _ hmem
      rw [hmod] at this
      exact absurd this (by decide)
  · intro hp x hx hx0
    rw [Zn_vars, mem_canonVars] at hx
    obtain ⟨h0, hlt⟩ := hx
    have ha1 : 1 ≤ x.toNat := by omega
    have haln : x.toNat < n := by omega
    have hnd : ¬ n ∣ x.toNat := fun hdvd => by
      have := Nat.le_of_dvd (by omega) hdvd
      omega
    have hcop : Nat.Coprime x.toNat n :=
      Nat.Coprime.symm (hp.coprime_iff_not_dvd.mpr hnd)
    obtain ⟨m, hm1⟩ := Nat.exists_mul_emod_eq_one_of_coprime hcop hp.one_lt
    have hjn : m % n < n := Nat.mod_lt _ (by omega)
    have hj1 : (x.toNat * (m % n)) % n = 1 := by
      rw [Nat.mul_mod, Nat.mod_mod_of_dvd m dvd_rfl, ← Nat.mul_mod]
      exact hm1
    have hexists : ∃ r ∈ (List.range n).map
        (fun j : Nat => (((x.toNat * j) % n : Nat) : Int)),
        (r == (1 : Int)) = true := by
      refine ⟨(((x.toNat * (m % n)) % n : Nat) : Int),
        List.mem_map.mpr ⟨m % n, List.mem_range.mpr hjn, rfl⟩, ?_⟩
      rw [hj1]
      decide
    have hsome : (((List.range n).map
        (fun j : Nat => (((x.toNat * j) % n : Nat) : Int))).findIdx?
        (fun r => r == 1)).isSome = true := by
      rw [List.findIdx?_isSome, List.any_eq_true]
      exact hexists
    obtain ⟨j₀, hj₀⟩ := Option.isSome_iff_exists.mp hsome
    obtain ⟨hjlen, -, -⟩ := List.findIdx?_eq_some_iff_getElem.mp hj₀
    have hj₀n : j₀ < n := by simpa using hjlen
    refine ⟨((j₀ : Nat) : Int), ?_⟩
    rw [Zn_findInv_eq hx0 h0 hlt, hj₀]
    show Except.ok (canonVars n)[j₀]? = Except.ok (some ((j₀ : Nat) : Int))
    rw [canonVars_getElem? hj₀n]
  · intro hn2 hnp
    have hq : Nat.Prime n.minFac := Nat.minFac_prime (by omega)
    have hq2 : 2 ≤ n.minFac := hq.two_le
    have hqd : n.minFac ∣ n := Nat.minFac_dvd n
    have hqlt : n.minFac < n :=
      lt_of_le_of_ne (Nat.minFac_le (by omega))
        (fun he => hnp (Nat.prime_def_minFac.mpr ⟨hn2, he⟩))
    have hq0 : ((n.minFac : Nat) : Int) ≠ 0 := Int.natCast_ne_zero.mpr (by omega)
    have hqpos : (0 : Int) ≤ ((n.minFac : Nat) : Int) := by positivity
    have hqltI : ((n.minFac : Nat) : Int) < (n : Int) := by exact_mod_cast hqlt
    refine ⟨((n.minFac : Nat) : Int), ?_, hq0, ?_⟩
    · rw [Zn_vars, mem_canonVars]
      exact ⟨hqpos, hqltI⟩
    · rw [Zn_findInv_eq hq0 hqpos hqltI]
      have hnone : (((List.range n).map
          (fun j : Nat => (((((n.minFac : Nat) : Int).toNat * j) % n : Nat) : Int))).findIdx?
          (fun r => r == 1)) = none := by
        rw [List.findIdx?_eq_none_iff]
        intro r hr
        obtain ⟨k, hk, rfl⟩ := List.mem_map.mp hr
        rw [beq_eq_false_iff_ne]
        intro h1
        have htn : (((n.minFac : Nat) : Int)).toNat = n.minFac := Int.toNat_natCast _
        rw [htn] at h1
        have hmod1 : (n.minFac * k) % n = 1 := by exact_mod_cast h1
        have hdd : n.minFac ∣ (n.minFac * k) % n :=
          (Nat.dvd_mod_iff hqd).mpr (dvd_mul_right _ _)
        rw [hmod1] at hdd
        have := Nat.le_of_dvd (by omega) hdd
        omega
      rw [hnone]

/-- Counterexample to C1 as stated: on the valid ring fromRange(3, 9), the
lookup for 4 returns 4, but multiply(4, 4) = 2 ≠ 1, even though the
representative 9 satisfies multiply(4, 9) = 1 — the lookup scanned the
index-space multiplication table, not the representative values. -/
theorem c1_counterexample :
    createFromRange 3 9 = some ring39 ∧
    ring39.findInverseVariable 4 = .ok (some 4) ∧
    ring39.multiply 4 4 = 2 ∧
    ring39.multiply 4 9 = 1 ∧ (9 : Int) ∈ ring39.vars :=
  ⟨rfl, rfl, by decide, by decide, by decide⟩

/-- Witness for the amended C1 at n = 5, x = 3: the lookup returns 2 and
3 * 2 = 6 ≡ 1 (mod 5). -/
theorem c1_fromCount_multiplicative_inverse_witness :
    ring5.multiply 3 2 = 1 :=
  (c1_fromCount_multiplicative_inverse 5 ring5 (by decide)).1 3 2
    (by decide) (by decide) (by decide)

theorem allocRows_length (rs : List (List Int)) :
    ∀ h : Heap, (allocRows h rs).1.rows.length = h.rows.length + rs.length := by
  induction rs with
  | nil => intro h; rfl
  | cons row rest ih =>
    intro h
    show (allocRows ⟨h.rows ++ [row]⟩ rest).1.rows.length = h.rows.length + (rest.length + 1)
    rw [ih ⟨h.rows ++ [row]⟩]
    simp [List.length_append]
    omega

theorem allocRows_refs_ge (rs : List (List Int)) :
    ∀ h : Heap, ∀ r ∈ (allocRows h rs).2, h.rows.length ≤ r := by
  induction rs with
  | nil => intro h r hr; exact absurd hr (List.not_mem_nil r)
  | cons row rest ih =>
    intro h r hr
    rcases List.mem_cons.mp hr with rfl | hr
    · exact le_refl _
    · have := ih ⟨h.rows ++ [row]⟩ r hr
      simp [List.length_append] at this
      omega

theorem allocRows_read_lt (rs : List (List Int)) :
    ∀ (h : Heap) (q : Nat), q < h.rows.length →
      (allocRows h rs).1.read q = h.read q := by
  induction rs with
  | nil => intro h q hq; rfl
  | cons row rest ih =>
    intro h q hq
    show (allocRows ⟨h.rows ++ [row]⟩ rest).1.read q = h.read q
    rw [ih ⟨h.rows ++ [row]⟩ q (by simp [List.length_append]; omega)]
    unfold Heap.read
    exact List.getD_append _ _ _ _ hq

theorem allocRows_reads (rs : List (List Int)) :
    ∀ h : Heap, ((allocRows h rs).2).map (allocRows h rs).1.read = rs := by
  induction rs with
  | nil => intro h; rfl
  | cons row rest ih =>
    intro h
    show (allocRows ⟨h.rows ++ [row]⟩ rest).1.read h.rows.length ::
        ((allocRows ⟨h.rows ++ [row]⟩ rest).2).map
          (allocRows ⟨h.rows ++ [row]⟩ rest).1.read = row :: rest
    rw [ih ⟨h.rows ++ [row]⟩]
    rw [allocRows_read_lt rest ⟨h.rows ++ [row]⟩ h.rows.length
      (by simp [List.length_append])]
    unfold Heap.read
    rw [List.getD_append_right _ _ _ _ (le_refl _), Nat.sub_self]
    rfl

theorem Heap.read_write_of_ne (h : Heap) {r q : Nat} (hne : r ≠ q)
    (row : List Int) : (h.write r row).read q = h.read q := by
  unfold Heap.write Heap.read
  rw [List.getD_eq_getElem?_getD, List.getElem?_set_ne hne,
    ← List.getD_eq_getElem?_getD]

/-- C7: getAdditionTable and getMultiplyTable return deep copies: the copy
has exactly the contents of the cached table, and overwriting any row of the
returned copy leaves every internal row of either table — and hence every
later table read or inverse lookup, which are functions of those rows —
unchanged. -/
theorem c7_tables_deep_copied (h : Heap) (o : ZObj) (hwf : o.wf h) :
    (((getAdditionTableObj h o).2).map (getAdditionTableObj h o).1.read =
      o.addRefs.map h.read) ∧
    (((getMultiplyTableObj h o).2).map (getMultiplyTableObj h o).1.read =
      o.mulRefs.map h.read) ∧
    (∀ r ∈ (getAdditionTableObj h o).2, ∀ row : List Int, ∀ q : Nat,
      q ∈ o.addRefs ∨ q ∈ o.mulRefs →
      ((getAdditionTableObj h o).1.write r row).read q = h.read q) ∧
    (∀ r ∈ (getMultiplyTableObj h o).2, ∀ row : List Int, ∀ q : Nat,
      q ∈ o.addRefs ∨ q ∈ o.mulRefs →
      ((getMultiplyTableObj h o).1.write r row).read q = h.read q) := by
  obtain ⟨hadd, hmul⟩ := hwf
  refine ⟨allocRows_reads _ h, allocRows_reads _ h, ?_, ?_⟩
  · intro r hr row q hq
    have hrge : h.rows.length ≤ r := allocRows_refs_ge _ h r hr
    have hqlt : q < h.rows.length := by
      rcases hq with hq | hq
      exacts [hadd q hq, hmul q hq]
    rw [Heap.read_write_of_ne _ (by omega) row]
    exact allocRows_read_lt _ h q hqlt
  · intro r hr row q hq
    have hrge : h.rows.length ≤ r := allocRows_refs_ge _ h r hr
    have hqlt : q < h.rows.length := by
      rcases hq with hq | hq
      exacts [hadd q hq, hmul q hq]
    rw [Heap.read_write_of_ne _ (by omega) row]
    exact allocRows_read_lt _ h q hqlt

/-- Witness for C7 on a two-row heap: writing through the first reference of
the returned addition-table copy does not change the internal row 0. -/
theorem c7_tables_deep_copied_witness :
    ((getAdditionTableObj heapW zobjW).1.write 2 [9]).read 0 = heapW.read 0 :=
  (c7_tables_deep_copied heapW zobjW
      ⟨by intro r hr; simp [zobjW, heapW] at hr ⊢; omega,
        by intro r hr; simp [zobjW, heapW] at hr ⊢; omega⟩).2.2.1
    2 (by decide) [9] 0 (Or.inl (by decide))

end MathHelper
